import Mathlib

/-!
Verification of the `MemMgr` allocator (`src/allocator.hpp`).

The source is a single C++ class `Allocator` with two operations:

* `void *alloc(uint32_t size)` — first-fit scan over in-band block headers
  (`mcb_st`), growing the heap with `sbrk` on a miss;
* `void free(void *block)` — recover the header at `block - sizeof(mcb_st)`
  and set its `free` flag.

The embedding below models addresses as `Nat` and the process memory as a
map from header addresses to header records (`mcb_st`).  A header occupies
`headerSize = 8` bytes (`sizeof(mcb_st)`: a `bool` padded to 4 bytes plus a
`uint32_t`); all reachable states considered below keep distinct headers at
least `headerSize` apart, so the header-granular map is faithful to the byte
-level layout.  The `uint32_t` wraparound of `size += sizeof(mcb_st)` is
modelled explicitly with `% U32`.

Two deliberate points of translation:

* `assert(size =! 0)` in `alloc` is an assignment `size = !0` inside the
  `assert` macro; this embedding follows a release (NDEBUG) build, in which
  the macro expands to nothing, so the guard neither rejects a zero request
  nor modifies `size`.
* `sbrk(size)`'s return value (and hence its failure indication) is
  discarded by the source on the growth path; `alloc` below therefore takes
  a `_sbrkFails` argument that its body never consults, mirroring that the
  result cannot depend on whether heap growth succeeded.
-/

namespace MemMgr

/-- Modulus of `uint32_t` arithmetic. -/
def U32 : Nat := 4294967296

/-- Number of bytes occupied by a block header: `sizeof(mcb_st)`
(a `bool` padded to 4 bytes followed by a `uint32_t`). -/
def headerSize : Nat := 8

/-- Block header, `struct mcb_st { bool free; uint32_t size; }`.
`size` is the total block size including the header, a `uint32_t` value. -/
structure mcb_st where
  free : Bool
  size : Nat
  deriving DecidableEq

/-- Allocator state: `mem_start_` and `last_addr_` are the fields of the
C++ class; `mem` models the process memory at header granularity (the
header record readable at each address — addresses never written hold
arbitrary junk, as in the real process). -/
structure Allocator where
  mem_start_ : Nat
  last_addr_ : Nat
  mem : Nat → mcb_st

/-- Update the `free` flag of the header stored at address `a`
(`mcb->free = b`). -/
def setFree (m : Nat → mcb_st) (a : Nat) (b : Bool) : Nat → mcb_st :=
  fun x => if x = a then { m x with free := b } else m x

/-- Store a whole header at address `a` (`mcb->free = ...; mcb->size = ...`). -/
def writeHeader (m : Nat → mcb_st) (a : Nat) (h : mcb_st) : Nat → mcb_st :=
  fun x => if x = a then h else m x

/-- Constructor `Allocator()`: `last_addr_ = sbrk(0); mem_start_ = last_addr_`.
`base` is the program break reported by `sbrk(0)`; `junk` is whatever the
uninitialized process memory holds. -/
def Allocator.init (base : Nat) (junk : Nat → mcb_st) : Allocator :=
  { mem_start_ := base, last_addr_ := base, mem := junk }

/-- `void free(void *block)`:
`block_mcb = (mcb_st *)((uint8_t *)block - sizeof(mcb_st)); block_mcb->free = true;`. -/
def Allocator.free (s : Allocator) (block : Nat) : Allocator :=
  { s with mem := setFree s.mem (block - headerSize) true }

/-- Loop condition of the first-fit scan:
`(mcb->free) && (mcb->size >= size)` for the header at address `a`. -/
def fits (mem : Nat → mcb_st) (need : Nat) (a : Nat) : Bool :=
  (mem a).free && decide (need ≤ (mem a).size)

/-- Result of the `while (curr != last_addr_)` scan loop in `alloc`:
either it returns from inside the loop (`hit`, carrying the returned payload
pointer and the memory after `mcb->free = false`), or it exits the loop at
`last_addr_` (`missEnd`), or it fails to do either within the given number
of header reads (`outOfFuel` — the C++ loop would keep walking; under the
block-partition invariant this case is proved unreachable). -/
inductive ScanResult where
  | hit (ret : Nat) (mem : Nat → mcb_st) : ScanResult
  | missEnd : ScanResult
  | outOfFuel : ScanResult

/-- The scan loop of `alloc`, with an explicit bound `fuel` on the number of
header reads:

```
while (curr != last_addr_) {
  mcb = (mcb_st *)curr;
  if ((mcb->free) && (mcb->size >= size)) {
    mcb->free = false;
    return (uint8_t *)curr + sizeof(mcb_st);
  }
  curr = (uint8_t *)curr + mcb->size;
}
```
-/
def scan (mem : Nat → mcb_st) (last : Nat) (need : Nat) : Nat → Nat → ScanResult
  | _, 0 => .outOfFuel
  | curr, fuel + 1 =>
    if curr = last then .missEnd
    else if fits mem need curr then .hit (curr + headerSize) (setFree mem curr false)
    else scan mem last need (curr + (mem curr).size) fuel

/-- Result of `alloc`: the source returns `void *` and has no failure path,
so the only alternatives are a returned payload pointer together with the
updated allocator state, or the scan loop never terminating. -/
inductive AllocResult where
  | ok (ret : Nat) (state : Allocator) : AllocResult
  | loopForever : AllocResult

/-- Returned payload pointer of an `alloc` call, when the call returns. -/
def AllocResult.retOpt : AllocResult → Option Nat
  | .ok r _ => some r
  | .loopForever => none

/-- Value of `last_addr_` after an `alloc` call, when the call returns. -/
def AllocResult.frontierOpt : AllocResult → Option Nat
  | .ok _ st => some st.last_addr_
  | .loopForever => none

/-- `void *alloc(uint32_t size0)`.  The `uint32_t` parameter and the
compound assignment `size += sizeof(mcb_st)` reduce the total size modulo
`2^32`; the scan starts at `mem_start_` and is given enough fuel to visit
every byte of `[mem_start_, last_addr_)` once.  On a miss the source runs

```
sbrk(size);                      // return value (failure!) discarded
ret = last_addr_;
last_addr_ = (uint8_t *)last_addr_ + size;
mcb = (mcb_st *)ret; mcb->free = false; mcb->size = size;
return (uint8_t *)ret + sizeof(mcb_st);
```

`_sbrkFails` records whether the `sbrk` call failed; the body never reads
it, exactly as the source never reads `sbrk`'s result. -/
def Allocator.alloc (s : Allocator) (size0 : Nat) (_sbrkFails : Bool) : AllocResult :=
  match scan s.mem s.last_addr_ ((size0 % U32 + headerSize) % U32) s.mem_start_
      (s.last_addr_ - s.mem_start_ + 1) with
  | .hit ret mem => .ok ret { s with mem := mem }
  | .outOfFuel => .loopForever
  | .missEnd =>
    .ok (s.last_addr_ + headerSize)
      { s with
          last_addr_ := s.last_addr_ + (size0 % U32 + headerSize) % U32,
          mem := writeHeader s.mem s.last_addr_
                   { free := false, size := (size0 % U32 + headerSize) % U32 } }

/-- Run a sequence of `alloc` calls, collecting the returned payload
pointers; `none` if some call never returns. -/
def allocSeq : Allocator → List Nat → Option (List Nat × Allocator)
  | s, [] => some ([], s)
  | s, sz :: rest =>
    match s.alloc sz false with
    | .ok p s' =>
      match allocSeq s' rest with
      | some (ps, s'') => some (p :: ps, s'')
      | none => none
    | .loopForever => none

/-- Pointers returned by a sequence of `alloc` calls. -/
def allocSeqPtrs (s : Allocator) (szs : List Nat) : Option (List Nat) :=
  (allocSeq s szs).map Prod.fst

/-- Junk contents of uninitialized memory used by concrete test states. -/
def junkMem : Nat → mcb_st := fun _ => { free := false, size := 0 }

/-- A freshly constructed allocator whose program break is at address 0. -/
def arena0 : Allocator := Allocator.init 0 junkMem

/-- Block-partition invariant of the arena, as a chain of block addresses:
`ChainL mem a b l` says the byte range `[a, b)` is exactly partitioned into
the blocks headed at the addresses in `l` (in address order) — each block
has positive total size (a `uint32_t` value), and hopping from `a` by the
recorded sizes visits exactly the addresses of `l` and lands exactly on
`b`. -/
inductive ChainL (mem : Nat → mcb_st) : Nat → Nat → List Nat → Prop
  | nil (a : Nat) : ChainL mem a a []
  | cons (a b : Nat) (l : List Nat) (h1 : 0 < (mem a).size) (h2 : (mem a).size < U32)
      (rest : ChainL mem (a + (mem a).size) b l) : ChainL mem a b (a :: l)

/-! ### Basic facts about chains -/

/-- A chain's start address never exceeds its end address. -/
theorem chain_le {mem : Nat → mcb_st} {a b : Nat} {l : List Nat}
    (h : ChainL mem a b l) : a ≤ b := by
  induction h with
  | nil a => exact Nat.le_refl a
  | cons a b l h1 h2 rest ih => omega

/-- Every block of a chain lies inside `[a, b)` and has positive size
bounded by `2^32`. -/
theorem chain_mem {mem : Nat → mcb_st} {a b : Nat} {l : List Nat}
    (h : ChainL mem a b l) :
    ∀ x ∈ l, a ≤ x ∧ x + (mem x).size ≤ b ∧ 0 < (mem x).size ∧ (mem x).size < U32 := by
  induction h with
  | nil a => simp
  | cons a b l h1 h2 rest ih =>
    intro x hx
    rcases List.mem_cons.mp hx with h | h
    · subst h
      exact ⟨Nat.le_refl x, chain_le rest, h1, h2⟩
    · have hx' := ih x h
      omega

/-- A chain over `[a, b)` has at most `b - a` blocks. -/
theorem chain_length {mem : Nat → mcb_st} {a b : Nat} {l : List Nat}
    (h : ChainL mem a b l) : a + l.length ≤ b := by
  induction h with
  | nil a => simp
  | cons a b l h1 h2 rest ih =>
    simp only [List.length_cons]
    omega

/-- Chains only depend on the sizes recorded at their block addresses, so
they survive any memory update that preserves those sizes. -/
theorem chain_congr {m m' : Nat → mcb_st} {a b : Nat} {l : List Nat}
    (hsz : ∀ x ∈ l, (m' x).size = (m x).size)
    (h : ChainL m a b l) : ChainL m' a b l := by
  induction h with
  | nil a => exact ChainL.nil a
  | cons a b l h1 h2 rest ih =>
    have hx : (m' a).size = (m a).size := hsz a (List.mem_cons_self a l)
    refine ChainL.cons a b l (by rw [hx]; exact h1) (by rw [hx]; exact h2) ?_
    rw [hx]
    exact ih fun x hx' => hsz x (List.mem_cons_of_mem a hx')

/-- Two adjacent chains concatenate. -/
theorem chain_append {mem : Nat → mcb_st} {a b c : Nat} {l1 l2 : List Nat}
    (h1 : ChainL mem a b l1) (h2 : ChainL mem b c l2) :
    ChainL mem a c (l1 ++ l2) := by
  induction h1 with
  | nil a => simpa using h2
  | cons a b' l h1' h2' rest ih => exact ChainL.cons a c (l ++ l2) h1' h2' (ih h2)

/-- Inversion for a non-empty chain: the head of the list is the start
address, and the tail is a chain from the next block address. -/
theorem chain_cons_inv {mem : Nat → mcb_st} {a b y : Nat} {l : List Nat}
    (h : ChainL mem a b (y :: l)) :
    a = y ∧ 0 < (mem a).size ∧ (mem a).size < U32 ∧
      ChainL mem (a + (mem a).size) b l := by
  cases h
  exact ⟨rfl, by assumption, by assumption, by assumption⟩

/-- Splitting a chain at a designated member: the prefix is a chain from
the start to that member's address, and the rest is a chain from there to
the end. -/
theorem chain_split {mem : Nat → mcb_st} :
    ∀ (l1 : List Nat) {a b A : Nat} {l2 : List Nat},
      ChainL mem a b (l1 ++ A :: l2) →
      ChainL mem a A l1 ∧ ChainL mem A b (A :: l2) := by
  intro l1
  induction l1 with
  | nil =>
    intro a b A l2 h
    obtain ⟨rfl, _, _, _⟩ := chain_cons_inv h
    exact ⟨ChainL.nil a, h⟩
  | cons x l1 ih =>
    intro a b A l2 h
    obtain ⟨rfl, h1, h2, rest⟩ := chain_cons_inv h
    have := ih rest
    exact ⟨ChainL.cons a A l1 h1 h2 this.1, this.2⟩

/-! ### The scan loop along a chain -/

/-- On a state whose scanned range is a chain, the scan loop is exactly a
first-fit search: it returns a hit at the first chain block satisfying the
loop condition, or reaches `last` when no block qualifies.  `fuel` must
exceed the number of blocks. -/
theorem scan_chain {mem : Nat → mcb_st} {last need curr : Nat} {l : List Nat}
    (hc : ChainL mem curr last l) :
    ∀ {fuel : Nat}, l.length < fuel →
      scan mem last need curr fuel =
        (match l.find? (fits mem need) with
         | some F => ScanResult.hit (F + headerSize) (setFree mem F false)
         | none => ScanResult.missEnd) := by
  induction hc with
  | nil a =>
    intro fuel hf
    match fuel, hf with
    | f + 1, _ => simp [scan, List.find?]
  | cons a b l h1 h2 rest ih =>
    intro fuel hf
    match fuel, hf with
    | f + 1, hf =>
      have hne : a ≠ b := by
        have := chain_le rest
        omega
      cases hfit : fits mem need a with
      | true =>
        simp [scan, hne, hfit, List.find?_cons_of_pos _ hfit]
      | false =>
        have hlen : l.length < f := by
          simp only [List.length_cons] at hf
          omega
        have hfind : (a :: l).find? (fits mem need) = l.find? (fits mem need) :=
          List.find?_cons_of_neg _ (by simp [hfit])
        simp [scan, hne, hfit, hfind, ih hlen]

/-- Characterization of `alloc` on a state satisfying the block-partition
invariant: it either flips the first qualifying free block to allocated and
returns its payload pointer, or appends a fresh block at `last_addr_`. -/
theorem alloc_chain_eq (s : Allocator) (n : Nat) (g : Bool) {l : List Nat}
    (hc : ChainL s.mem s.mem_start_ s.last_addr_ l) :
    s.alloc n g =
      (match l.find? (fits s.mem ((n % U32 + headerSize) % U32)) with
       | some F => AllocResult.ok (F + headerSize) { s with mem := setFree s.mem F false }
       | none =>
         AllocResult.ok (s.last_addr_ + headerSize)
           { s with
               last_addr_ := s.last_addr_ + (n % U32 + headerSize) % U32,
               mem := writeHeader s.mem s.last_addr_
                        { free := false, size := (n % U32 + headerSize) % U32 } }) := by
  have hlen : l.length < s.last_addr_ - s.mem_start_ + 1 := by
    have := chain_length hc
    omega
  unfold Allocator.alloc
  rw [scan_chain hc hlen]
  cases h : l.find? (fits s.mem ((n % U32 + headerSize) % U32)) <;> simp

/-- Reuse case of `alloc`: some block in the chain qualifies, and the first
such block (in address order) is returned. -/
theorem alloc_reuse {s : Allocator} {l : List Nat} {F n : Nat} (g : Bool)
    (hc : ChainL s.mem s.mem_start_ s.last_addr_ l)
    (hF : l.find? (fits s.mem ((n % U32 + headerSize) % U32)) = some F) :
    s.alloc n g = .ok (F + headerSize) { s with mem := setFree s.mem F false } := by
  rw [alloc_chain_eq s n g hc, hF]

/-- Miss case of `alloc`: no block in the chain qualifies, so a fresh block
is appended at `last_addr_`. -/
theorem alloc_miss {s : Allocator} {l : List Nat} {n : Nat} (g : Bool)
    (hc : ChainL s.mem s.mem_start_ s.last_addr_ l)
    (hnone : l.find? (fits s.mem ((n % U32 + headerSize) % U32)) = none) :
    s.alloc n g =
      .ok (s.last_addr_ + headerSize)
        { s with
            last_addr_ := s.last_addr_ + (n % U32 + headerSize) % U32,
            mem := writeHeader s.mem s.last_addr_
                     { free := false, size := (n % U32 + headerSize) % U32 } } := by
  rw [alloc_chain_eq s n g hc, hnone]

/-- When the request does not overflow `uint32_t`, the total size computed
by `alloc` is exactly `n + headerSize`. -/
theorem need_eq {n : Nat} (h : n + headerSize < U32) :
    (n % U32 + headerSize) % U32 = n + headerSize := by
  have h1 : n < U32 := by omega
  rw [Nat.mod_eq_of_lt h1, Nat.mod_eq_of_lt h]

/-! ### Pointwise effects of the memory updates -/

theorem setFree_same (m : Nat → mcb_st) (a : Nat) (b : Bool) :
    setFree m a b a = { m a with free := b } := by
  simp [setFree]

theorem setFree_other {x a : Nat} (m : Nat → mcb_st) (b : Bool) (h : x ≠ a) :
    setFree m a b x = m x := by
  simp [setFree, h]

theorem setFree_size (m : Nat → mcb_st) (a : Nat) (b : Bool) (x : Nat) :
    (setFree m a b x).size = (m x).size := by
  unfold setFree
  by_cases h : x = a <;> simp [h]

theorem writeHeader_same (m : Nat → mcb_st) (a : Nat) (h : mcb_st) :
    writeHeader m a h a = h := by
  simp [writeHeader]

theorem writeHeader_other {x a : Nat} (m : Nat → mcb_st) (h : mcb_st) (hx : x ≠ a) :
    writeHeader m a h x = m x := by
  simp [writeHeader, hx]

/-- `free` never changes any recorded block size, whatever pointer it is
handed: it only rewrites the `free` flag of one header. -/
theorem free_mem_size (s : Allocator) (p A : Nat) :
    ((s.free p).mem A).size = (s.mem A).size := by
  simp [Allocator.free, setFree_size]

/-- `free` changes neither `mem_start_` nor `last_addr_`. -/
theorem free_bounds (s : Allocator) (p : Nat) :
    (s.free p).mem_start_ = s.mem_start_ ∧ (s.free p).last_addr_ = s.last_addr_ :=
  ⟨rfl, rfl⟩

/-- A chain none of whose blocks is free defeats the first-fit scan. -/
theorem find?_none_of_allFull {mem : Nat → mcb_st} {l : List Nat} (k : Nat)
    (hfull : ∀ A ∈ l, (mem A).free = false) :
    l.find? (fits mem k) = none :=
  List.find?_eq_none.mpr fun x hx => by simp [fits, hfull x hx]

/-- Packaged description of the growth path of `alloc` for a
non-overflowing request: the returned pointer is the pre-call frontier plus
`headerSize`, the frontier advances by exactly `n + headerSize`, existing
headers are untouched, the new header is written at the pre-call frontier,
and the block partition extends by the new block. -/
theorem alloc_grow {s : Allocator} {l : List Nat} {n : Nat} (g : Bool)
    (hc : ChainL s.mem s.mem_start_ s.last_addr_ l)
    (hbound : n + headerSize < U32)
    (hnone : l.find? (fits s.mem (n + headerSize)) = none) :
    ∃ s', s.alloc n g = .ok (s.last_addr_ + headerSize) s' ∧
      s'.mem_start_ = s.mem_start_ ∧
      s'.last_addr_ = s.last_addr_ + (n + headerSize) ∧
      (∀ A ∈ l, s'.mem A = s.mem A) ∧
      s'.mem s.last_addr_ = { free := false, size := n + headerSize } ∧
      ChainL s'.mem s.mem_start_ s'.last_addr_ (l ++ [s.last_addr_]) := by
  have hnone' : l.find? (fits s.mem ((n % U32 + headerSize) % U32)) = none := by
    rw [need_eq hbound]
    exact hnone
  have heq := alloc_miss g hc hnone'
  rw [need_eq hbound] at heq
  refine ⟨_, heq, rfl, rfl, ?_, ?_, ?_⟩
  · intro A hA
    have hb := chain_mem hc A hA
    exact writeHeader_other s.mem _ (by omega)
  · exact writeHeader_same s.mem s.last_addr_ _
  · have hold : ChainL (writeHeader s.mem s.last_addr_
        { free := false, size := n + headerSize }) s.mem_start_ s.last_addr_ l := by
      refine chain_congr ?_ hc
      intro x hx
      have hb := chain_mem hc x hx
      rw [writeHeader_other s.mem _ (by omega)]
    refine chain_append hold ?_
    have hsz : ((writeHeader s.mem s.last_addr_
        { free := false, size := n + headerSize }) s.last_addr_).size = n + headerSize := by
      rw [writeHeader_same]
    refine ChainL.cons s.last_addr_ (s.last_addr_ + (n + headerSize)) [] ?_ ?_ ?_
    · rw [hsz]
      have h8 : headerSize = 8 := rfl
      omega
    · rw [hsz]; exact hbound
    · rw [hsz]; exact ChainL.nil _

/-- If `find?` misses on a prefix, searching the concatenation searches the
suffix. -/
theorem list_find?_append_none {α : Type} {p : α → Bool} {l1 l2 : List α}
    (h : l1.find? p = none) : (l1 ++ l2).find? p = l2.find? p := by
  induction l1 with
  | nil => simp
  | cons x l1 ih =>
    cases hx : p x with
    | true =>
      rw [List.find?_cons_of_pos _ hx] at h
      exact absurd h (by simp)
    | false =>
      rw [List.find?_cons_of_neg _ (by simp [hx])] at h
      rw [List.cons_append, List.find?_cons_of_neg _ (by simp [hx])]
      exact ih h

/-- An `alloc` call never changes the size recorded in any existing block's
header: reuse only rewrites a `free` flag, and growth writes only at the
old frontier, which lies past every existing block. -/
theorem alloc_sizes_stable {s : Allocator} {l : List Nat} {n : Nat} {g : Bool}
    {r : Nat} {s' : Allocator}
    (hc : ChainL s.mem s.mem_start_ s.last_addr_ l)
    (heq : s.alloc n g = .ok r s') :
    ∀ A ∈ l, (s'.mem A).size = (s.mem A).size := by
  rw [alloc_chain_eq s n g hc] at heq
  cases hfind : l.find? (fits s.mem ((n % U32 + headerSize) % U32)) with
  | some F =>
    simp only [hfind] at heq
    injection heq with hr hs
    intro A hA
    rw [← hs]
    exact setFree_size s.mem F false A
  | none =>
    simp only [hfind] at heq
    injection heq with hr hs
    intro A hA
    rw [← hs]
    have hb := chain_mem hc A hA
    show (writeHeader s.mem s.last_addr_
        { free := false, size := (n % U32 + headerSize) % U32 } A).size = (s.mem A).size
    rw [writeHeader_other s.mem _ (by omega)]

/-- Execution histories of the allocator: a reachable state together with
the list of payload pointers handed out so far.  `step_alloc` covers
`alloc` calls honoring the documented precondition `requestedSize > 0` and
staying in the non-overflowing `uint32_t` range `n + headerSize < 2^32`;
this bound is the restriction of the AMENDED partition-invariant claim,
not a silent omission: for a request beyond it the wrapped total size is
smaller than a header, the next append's header write overlaps the
previous header byte-wise, and the invariant is genuinely destroyed — the
byte-level development further below exhibits such a trace concretely, so
the unrestricted statement is refuted rather than dropped.  `step_free`
covers `free` of any pointer previously returned by `alloc`. -/
inductive Reach : Allocator → List Nat → Prop
  | init (base : Nat) (junk : Nat → mcb_st) : Reach (Allocator.init base junk) []
  | step_alloc (s : Allocator) (ptrs : List Nat) (n : Nat) (g : Bool) (r : Nat)
      (s' : Allocator) (hre : Reach s ptrs) (hn : 0 < n)
      (hbound : n + headerSize < U32) (heq : s.alloc n g = .ok r s') :
      Reach s' (r :: ptrs)
  | step_free (s : Allocator) (ptrs : List Nat) (p : Nat) (hre : Reach s ptrs)
      (hp : p ∈ ptrs) : Reach (s.free p) ptrs

/-- Every reachable state carries a block partition of
`[mem_start_, last_addr_)`. -/
theorem reach_chain (s : Allocator) (ptrs : List Nat) (h : Reach s ptrs) :
    ∃ l, ChainL s.mem s.mem_start_ s.last_addr_ l := by
  induction h with
  | init base junk => exact ⟨[], ChainL.nil base⟩
  | step_alloc s ptrs n g r s' hre hn hbound heq ih =>
    obtain ⟨l, hc⟩ := ih
    cases hfind : l.find? (fits s.mem ((n % U32 + headerSize) % U32)) with
    | some F =>
      have ha := alloc_reuse g hc hfind
      rw [ha] at heq
      injection heq with hr hs
      subst hs
      exact ⟨l, chain_congr (fun x _ => setFree_size s.mem F false x) hc⟩
    | none =>
      rw [need_eq hbound] at hfind
      obtain ⟨s'', heq2, h1, h2, h3, h4, hch⟩ := alloc_grow g hc hbound hfind
      rw [heq2] at heq
      injection heq with hr hs
      subst hs
      rw [← h1] at hch
      exact ⟨l ++ [s.last_addr_], hch⟩
  | step_free s ptrs p hre hp ih =>
    obtain ⟨l, hc⟩ := ih
    exact ⟨l, chain_congr (fun x _ => free_mem_size s p x) hc⟩

/-- Concrete test state: a single 20-byte block headed at address 0,
currently free (as after `free` of a 12-byte payload allocation). -/
def arenaFree : Allocator :=
  { mem_start_ := 0, last_addr_ := 20,
    mem := writeHeader junkMem 0 { free := true, size := 20 } }

/-- Concrete test state: a single 20-byte block headed at address 0,
currently allocated. -/
def arenaFull : Allocator :=
  { mem_start_ := 0, last_addr_ := 20,
    mem := writeHeader junkMem 0 { free := false, size := 20 } }

theorem arenaFree_chain : ChainL arenaFree.mem 0 20 [0] :=
  ChainL.cons 0 20 [] (by decide) (by decide) (ChainL.nil 20)

theorem arenaFull_chain : ChainL arenaFull.mem 0 20 [0] :=
  ChainL.cons 0 20 [] (by decide) (by decide) (ChainL.nil 20)

/-- States whose blocks are all allocated force every `alloc` down the
growth path: a sequence of non-overflowing `alloc` calls from such a state
succeeds, returns one pointer per request, each at least `headerSize` past
the pre-sequence frontier, and the payload spans are in strictly
increasing, pairwise disjoint address order. -/
theorem allocSeq_allFull :
    ∀ (szs : List Nat) (s : Allocator) (l : List Nat),
      ChainL s.mem s.mem_start_ s.last_addr_ l →
      (∀ A ∈ l, (s.mem A).free = false) →
      (∀ sz ∈ szs, 0 < sz ∧ sz + headerSize < U32) →
      ∃ ps s', allocSeq s szs = some (ps, s') ∧
        ps.length = szs.length ∧
        (∀ p ∈ ps, s.last_addr_ + headerSize ≤ p) ∧
        List.Pairwise (fun x y => x.1 < y.1 ∧ x.1 + x.2 ≤ y.1) (ps.zip szs) := by
  intro szs
  induction szs with
  | nil =>
    intro s l hc hfull hszs
    exact ⟨[], s, rfl, rfl, by simp, by simp⟩
  | cons sz rest ih =>
    intro s l hc hfull hszs
    have hsz := hszs sz (List.mem_cons_self sz rest)
    have hnone : l.find? (fits s.mem (sz + headerSize)) = none :=
      find?_none_of_allFull (sz + headerSize) hfull
    obtain ⟨s1, heq, h1, h2, h3, h4, hch⟩ := alloc_grow false hc hsz.2 hnone
    have hfull1 : ∀ A ∈ l ++ [s.last_addr_], (s1.mem A).free = false := by
      intro A hA
      rcases List.mem_append.mp hA with h | h
      · rw [h3 A h]
        exact hfull A h
      · have hAeq : A = s.last_addr_ := by simpa using h
        rw [hAeq, h4]
    have hch1 : ChainL s1.mem s1.mem_start_ s1.last_addr_ (l ++ [s.last_addr_]) := by
      rw [h1]
      exact hch
    obtain ⟨ps, s2, hseq, hlen, hlb, hpw⟩ :=
      ih s1 (l ++ [s.last_addr_]) hch1 hfull1 (fun z hz => hszs z (List.mem_cons_of_mem sz hz))
    have h8 : headerSize = 8 := rfl
    refine ⟨(s.last_addr_ + headerSize) :: ps, s2, ?_, ?_, ?_, ?_⟩
    · simp [allocSeq, heq, hseq]
    · simp [hlen]
    · intro p hp
      rcases List.mem_cons.mp hp with h | h
      · omega
      · have hlbp := hlb p h
        rw [h2] at hlbp
        omega
    · rw [List.zip_cons_cons]
      refine List.Pairwise.cons ?_ hpw
      intro y hy
      have hymem := List.of_mem_zip hy
      have hyp := hlb y.1 hymem.1
      rw [h2] at hyp
      have hszpos := hsz.1
      exact ⟨by omega, by omega⟩

/-! ### The claims -/

/-- C1: on any arena state satisfying the block-partition invariant, for any
request of payload size `n > 0`, if at least one block in
`[mem_start_, last_addr_)` is free with `size ≥ n + headerSize` — the
hypothesis `hF` names the earliest such block `F`, first-fit order being
`List.find?` over the chain in address order — then `alloc` selects exactly
that earliest block: it sets its `free` flag to `false`, leaves its size
and every other header unchanged, and returns its payload pointer
`F + headerSize`. -/
theorem alloc_first_fit (s : Allocator) (l : List Nat) (n : Nat) (g : Bool) (F : Nat)
    (hc : ChainL s.mem s.mem_start_ s.last_addr_ l)
    (hn : 0 < n)
    (hF : l.find? (fits s.mem (n + headerSize)) = some F) :
    s.alloc n g = .ok (F + headerSize) { s with mem := setFree s.mem F false } ∧
    (setFree s.mem F false F).free = false ∧
    (setFree s.mem F false F).size = (s.mem F).size ∧
    ∀ B, B ≠ F → setFree s.mem F false B = s.mem B := by
  have hFmem := List.mem_of_find?_eq_some hF
  have hFfits := List.find?_some hF
  have hb := chain_mem hc F hFmem
  have hsz : n + headerSize ≤ (s.mem F).size := by
    simp only [fits, Bool.and_eq_true, decide_eq_true_eq] at hFfits
    exact hFfits.2
  have hbound : n + headerSize < U32 := by omega
  have hF' : l.find? (fits s.mem ((n % U32 + headerSize) % U32)) = some F := by
    rw [need_eq hbound]
    exact hF
  refine ⟨alloc_reuse g hc hF', ?_, ?_, ?_⟩
  · rw [setFree_same]
  · exact setFree_size s.mem F false F
  · intro B hB
    exact setFree_other s.mem false hB

/-- Witness for C1: the concrete state with one free 20-byte block at
address 0 and a request of payload size 4. -/
theorem alloc_first_fit_witness :
    arenaFree.alloc 4 false =
        .ok (0 + headerSize) { arenaFree with mem := setFree arenaFree.mem 0 false } ∧
    (setFree arenaFree.mem 0 false 0).free = false ∧
    (setFree arenaFree.mem 0 false 0).size = (arenaFree.mem 0).size ∧
    (∀ B, B ≠ 0 → setFree arenaFree.mem 0 false B = arenaFree.mem B) :=
  alloc_first_fit arenaFree [0] 4 false 0 arenaFree_chain (by decide) (by decide)

/-- C2 as frozen is false on the code: `alloc`'s total size is computed in
`uint32_t`, so at `n = 4294967292` (on the fresh arena, whose scanned range
is empty, so no free block qualifies) `size += sizeof(mcb_st)` wraps to 4
and the frontier advances by 4 bytes, not by `n + headerSize`. -/
theorem alloc_growth_exact_cex :
    arena0.last_addr_ = arena0.mem_start_ ∧
    (arena0.alloc 4294967292 false).frontierOpt = some 4 ∧
    (arena0.alloc 4294967292 false).retOpt = some headerSize ∧
    arena0.last_addr_ + (4294967292 + headerSize) ≠ 4 :=
  ⟨rfl, rfl, rfl, by decide⟩

/-- C2 (amended with `n + headerSize < 2^32`; for larger `n` the `uint32_t`
total size wraps modulo `2^32`, see the counterexample): on any state
satisfying the block-partition invariant, if no block is free with
`size ≥ n + headerSize`, then `alloc n` places a new block at the pre-call
frontier with header `free = false, size = n + headerSize`, advances the
frontier by exactly `n + headerSize` bytes, and returns the pre-call
frontier plus `headerSize`. -/
theorem alloc_growth_exact (s : Allocator) (l : List Nat) (n : Nat) (g : Bool)
    (hc : ChainL s.mem s.mem_start_ s.last_addr_ l)
    (hn : 0 < n) (hbound : n + headerSize < U32)
    (hnone : l.find? (fits s.mem (n + headerSize)) = none) :
    s.alloc n g = .ok (s.last_addr_ + headerSize)
      { s with
          last_addr_ := s.last_addr_ + (n + headerSize),
          mem := writeHeader s.mem s.last_addr_
                   { free := false, size := n + headerSize } } := by
  have hnone' : l.find? (fits s.mem ((n % U32 + headerSize) % U32)) = none := by
    rw [need_eq hbound]
    exact hnone
  have h := alloc_miss g hc hnone'
  rw [need_eq hbound] at h
  exact h

/-- Witness for C2 (amended): a 16-byte request on the fresh arena. -/
theorem alloc_growth_exact_witness :
    arena0.alloc 16 false = .ok (arena0.last_addr_ + headerSize)
      { arena0 with
          last_addr_ := arena0.last_addr_ + (16 + headerSize),
          mem := writeHeader arena0.mem arena0.last_addr_
                   { free := false, size := 16 + headerSize } } :=
  alloc_growth_exact arena0 [] 16 false (ChainL.nil 0) (by decide) (by decide) rfl

/-- C3: the code does NOT surface an out-of-memory failure.  The source
calls `sbrk(size)` on the miss path and discards its result, so the outcome
of `alloc` is identical whether or not heap growth failed: even with the
growth primitive failing, `alloc` still returns a payload pointer and still
advances `last_addr_` (here from 0 to 24 on the fresh arena), exactly as in
the success case, instead of failing with `OutOfMemory`. -/
theorem alloc_ignores_growth_failure :
    (∀ (s : Allocator) (n : Nat), s.alloc n true = s.alloc n false) ∧
    (arena0.alloc 16 true).retOpt = some (0 + headerSize) ∧
    (arena0.alloc 16 true).frontierOpt = some (16 + headerSize) ∧
    arena0.last_addr_ = 0 :=
  ⟨fun _ _ => rfl, rfl, rfl, rfl⟩

/-- C4: a zero-size request is not rejected.  In the source the guard is
`assert(size =! 0)` — a malformed comparison that is an assignment inside
the `assert` macro and disappears entirely in a release (NDEBUG) build —
so `alloc 0` always returns a payload pointer; and when no free block
qualifies, it appends a header-only block: total size exactly
`headerSize`, header written at the pre-call frontier, payload pointer
returned to the caller. -/
theorem alloc_zero_not_rejected (s : Allocator) (l : List Nat) (g : Bool)
    (hc : ChainL s.mem s.mem_start_ s.last_addr_ l) :
    (∃ r s', s.alloc 0 g = .ok r s') ∧
    (l.find? (fits s.mem headerSize) = none →
      s.alloc 0 g = .ok (s.last_addr_ + headerSize)
        { s with
            last_addr_ := s.last_addr_ + headerSize,
            mem := writeHeader s.mem s.last_addr_
                     { free := false, size := headerSize } }) := by
  have h8 : (0 % U32 + headerSize) % U32 = headerSize := by decide
  constructor
  · rw [alloc_chain_eq s 0 g hc]
    cases l.find? (fits s.mem ((0 % U32 + headerSize) % U32)) <;> exact ⟨_, _, rfl⟩
  · intro hnone
    have hnone' : l.find? (fits s.mem ((0 % U32 + headerSize) % U32)) = none := by
      rw [h8]
      exact hnone
    have h := alloc_miss g hc hnone'
    rw [h8] at h
    exact h

/-- Witness for C4: `alloc 0` on the fresh arena produces a header-only
block. -/
theorem alloc_zero_not_rejected_witness :
    (∃ r s', arena0.alloc 0 false = .ok r s') ∧
    ([].find? (fits arena0.mem headerSize) = none →
      arena0.alloc 0 false = .ok (arena0.last_addr_ + headerSize)
        { arena0 with
            last_addr_ := arena0.last_addr_ + headerSize,
            mem := writeHeader arena0.mem arena0.last_addr_
                     { free := false, size := headerSize } }) :=
  alloc_zero_not_rejected arena0 [] false (ChainL.nil 0)

/-- C8: frame effect of `free` on a payload pointer `A + headerSize`
previously returned by `alloc` (its block `A` is in the chain) and not
already freed: the header at `(A + headerSize) - headerSize = A` gets
`free = true`, its size is untouched, every other header byte-for-byte
untouched, `mem_start_` and `last_addr_` untouched, and the block
partition (hence the absence of any merging) is preserved unchanged. -/
theorem free_frame (s : Allocator) (l : List Nat) (A : Nat)
    (hc : ChainL s.mem s.mem_start_ s.last_addr_ l)
    (hA : A ∈ l)
    (hallocated : (s.mem A).free = false) :
    (s.free (A + headerSize)).mem_start_ = s.mem_start_ ∧
    (s.free (A + headerSize)).last_addr_ = s.last_addr_ ∧
    ((s.free (A + headerSize)).mem A).free = true ∧
    ((s.free (A + headerSize)).mem A).size = (s.mem A).size ∧
    (∀ B, B ≠ A → (s.free (A + headerSize)).mem B = s.mem B) ∧
    ChainL (s.free (A + headerSize)).mem s.mem_start_ s.last_addr_ l := by
  have ha : A + headerSize - headerSize = A := by omega
  refine ⟨rfl, rfl, ?_, ?_, ?_, ?_⟩
  · show (setFree s.mem (A + headerSize - headerSize) true A).free = true
    rw [ha, setFree_same]
  · exact free_mem_size s (A + headerSize) A
  · intro B hB
    show setFree s.mem (A + headerSize - headerSize) true B = s.mem B
    rw [ha]
    exact setFree_other s.mem true hB
  · exact chain_congr (fun x _ => free_mem_size s (A + headerSize) x) hc

/-- Witness for C8: freeing the payload pointer of the allocated 20-byte
block at address 0. -/
theorem free_frame_witness :
    (arenaFull.free (0 + headerSize)).mem_start_ = arenaFull.mem_start_ ∧
    (arenaFull.free (0 + headerSize)).last_addr_ = arenaFull.last_addr_ ∧
    ((arenaFull.free (0 + headerSize)).mem 0).free = true ∧
    ((arenaFull.free (0 + headerSize)).mem 0).size = (arenaFull.mem 0).size ∧
    (∀ B, B ≠ 0 → (arenaFull.free (0 + headerSize)).mem B = arenaFull.mem B) ∧
    ChainL (arenaFull.free (0 + headerSize)).mem arenaFull.mem_start_
      arenaFull.last_addr_ [0] :=
  free_frame arenaFull [0] 0 arenaFull_chain (by decide) (by decide)

/-- C9: `free` is idempotent at the state level — freeing the same pointer
twice in succession leaves the allocator in exactly the state reached after
freeing it once, the second call merely re-setting an already-true flag.
(The proof needs no precondition: it holds for every pointer, in particular
for every pointer previously returned by `alloc`.) -/
theorem free_idempotent (s : Allocator) (p : Nat) :
    (s.free p).free p = s.free p := by
  show ({ s with mem := setFree s.mem (p - headerSize) true } :
      Allocator).free p = s.free p
  unfold Allocator.free
  congr 1
  funext x
  by_cases h : x = p - headerSize <;> simp [setFree, h]

/-- C10: on any state satisfying the block-partition invariant — positive
block sizes whose sum from `mem_start_` lands exactly on `last_addr_` —
the first-fit scan loop inside `alloc` terminates: hopping from
`mem_start_` by the recorded sizes reaches `last_addr_` (or returns from
inside the loop) within the fuel bound, so `alloc` never fails to
return. -/
theorem alloc_terminates (s : Allocator) (l : List Nat) (n : Nat) (g : Bool)
    (hc : ChainL s.mem s.mem_start_ s.last_addr_ l) :
    s.alloc n g ≠ .loopForever := by
  rw [alloc_chain_eq s n g hc]
  cases l.find? (fits s.mem ((n % U32 + headerSize) % U32)) <;> simp

/-- Witness for C10: the fresh arena with an arbitrary 7-byte request. -/
theorem alloc_terminates_witness : arena0.alloc 7 false ≠ .loopForever :=
  alloc_terminates arena0 [] 7 false (ChainL.nil 0)

/-!
### Byte-level model of the header layout

The header-granular model above is byte-faithful only while distinct block
headers never overlap, i.e. while every recorded size is at least
`headerSize`.  An `alloc` call whose `uint32_t` total wraps below
`headerSize` leaves exactly that situation behind, so to settle what the
source really does there, the definitions below re-translate `alloc` at
byte granularity.  Layout of `struct mcb_st { bool free; uint32_t size; }`
per the Itanium C++ ABI on a little-endian LP64 platform (what GCC/Clang
produce on x86-64 and AArch64 Linux, the targets of this `sbrk`-based
source): `free` is the byte at offset 0, bytes 1–3 are padding,
`size` occupies bytes 4–7 stored little-endian. -/

/-- Store one byte (`uint8_t` semantics) at address `a`. -/
def storeByte (m : Nat → Nat) (a v : Nat) : Nat → Nat :=
  fun x => if x = a then v % 256 else m x

/-- Store a `uint32_t` little-endian at addresses `a .. a+3`. -/
def storeU32 (m : Nat → Nat) (a v : Nat) : Nat → Nat :=
  storeByte (storeByte (storeByte (storeByte m a v) (a + 1) (v / 256))
    (a + 2) (v / 65536)) (a + 3) (v / 16777216)

/-- Store a `bool` (one byte, 1 for `true`, 0 for `false`) at address `a`. -/
def storeBool (m : Nat → Nat) (a : Nat) (b : Bool) : Nat → Nat :=
  storeByte m a (if b then 1 else 0)

/-- Load a `uint32_t` little-endian from addresses `a .. a+3`. -/
def loadU32 (m : Nat → Nat) (a : Nat) : Nat :=
  m a + 256 * m (a + 1) + 65536 * m (a + 2) + 16777216 * m (a + 3)

/-- Read `mcb->free` of the header at address `a` (a nonzero byte is
`true`). -/
def mcbFree (m : Nat → Nat) (a : Nat) : Bool :=
  decide (m a ≠ 0)

/-- Read `mcb->size` of the header at address `a` (offset 4, see the
layout note). -/
def mcbSize (m : Nat → Nat) (a : Nat) : Nat :=
  loadU32 m (a + 4)

/-- Write a whole header at address `a`, in the source's statement order
`mcb->free = ...; mcb->size = ...`. -/
def writeMcb (m : Nat → Nat) (a : Nat) (freeb : Bool) (size : Nat) : Nat → Nat :=
  storeU32 (storeBool m a freeb) (a + 4) size

/-- View byte-level memory through header records, for comparison with the
header-granular model: the partition predicate `ChainL` is stated over this
view. -/
def headerView (m : Nat → Nat) : Nat → mcb_st :=
  fun a => { free := mcbFree m a, size := mcbSize m a }

/-- Byte-level allocator state: same fields as `Allocator`, with the
process memory now a byte store. -/
structure AllocatorB where
  mem_start_ : Nat
  last_addr_ : Nat
  mem : Nat → Nat

/-- Result of the scan loop in the byte-level model (same three outcomes
as `ScanResult`). -/
inductive ScanResultB where
  | hit (ret : Nat) (mem : Nat → Nat) : ScanResultB
  | missEnd : ScanResultB
  | outOfFuel : ScanResultB

/-- Loop condition `(mcb->free) && (mcb->size >= size)` read byte-wise. -/
def fitsB (m : Nat → Nat) (need a : Nat) : Bool :=
  mcbFree m a && decide (need ≤ mcbSize m a)

/-- The scan loop of `alloc`, byte-level: identical control flow to `scan`,
with header reads and the `mcb->free = false` write done byte-wise. -/
def scanB (m : Nat → Nat) (last need : Nat) : Nat → Nat → ScanResultB
  | _, 0 => .outOfFuel
  | curr, fuel + 1 =>
    if curr = last then .missEnd
    else if fitsB m need curr then .hit (curr + headerSize) (storeBool m curr false)
    else scanB m last need (curr + mcbSize m curr) fuel

/-- Result of a byte-level `alloc` call. -/
inductive AllocResultB where
  | ok (ret : Nat) (state : AllocatorB) : AllocResultB
  | loopForever : AllocResultB

/-- Returned payload pointer of a byte-level `alloc` call. -/
def AllocResultB.retOpt : AllocResultB → Option Nat
  | .ok r _ => some r
  | .loopForever => none

/-- State after a byte-level `alloc` call, with a default for the
never-returning case. -/
def AllocResultB.stateOr : AllocResultB → AllocatorB → AllocatorB
  | .ok _ s, _ => s
  | .loopForever, d => d

/-- `void *alloc(uint32_t size0)` at byte granularity: the same translation
as `Allocator.alloc` — wrapped `uint32_t` total, scan from `mem_start_`,
discarded `sbrk` failure — except that the header write on the miss path is
the byte-wise `mcb->free = false; mcb->size = size;`. -/
def AllocatorB.alloc (s : AllocatorB) (size0 : Nat) (_sbrkFails : Bool) : AllocResultB :=
  match scanB s.mem s.last_addr_ ((size0 % U32 + headerSize) % U32) s.mem_start_
      (s.last_addr_ - s.mem_start_ + 1) with
  | .hit ret mem => .ok ret { s with mem := mem }
  | .outOfFuel => .loopForever
  | .missEnd =>
    .ok (s.last_addr_ + headerSize)
      { s with
          last_addr_ := s.last_addr_ + (size0 % U32 + headerSize) % U32,
          mem := writeMcb s.mem s.last_addr_ false ((size0 % U32 + headerSize) % U32) }

/-- Uninitialized byte memory for the concrete counterexample trace. -/
def junkBytes : Nat → Nat := fun _ => 0

/-- A freshly constructed allocator (byte-level) whose program break is at
address 0. -/
def arenaB0 : AllocatorB :=
  { mem_start_ := 0, last_addr_ := 0, mem := junkBytes }

/-- State after `alloc(4294967289)` on the fresh arena: the `uint32_t`
total `4294967289 + 8` wraps to 1, so the appended block records size 1 —
smaller than its own 8-byte header — and the frontier advances to 1. -/
def cexState1 : AllocatorB :=
  (arenaB0.alloc 4294967289 false).stateOr arenaB0

/-- State after a further `alloc(16)`: its header is written at address 1,
inside the previous block's header, overwriting bytes of that header's
`size` field. -/
def cexState2 : AllocatorB :=
  (cexState1.alloc 16 false).stateOr arenaB0

/-- Inversion for an empty chain: it spans an empty range. -/
theorem chain_nil_inv {mem : Nat → mcb_st} {a b : Nat}
    (h : ChainL mem a b []) : a = b := by
  cases h
  rfl

/-- C5 as frozen is false on the code: `allocate` accepts any `uint32_t`
size `> 0`, and the trace `alloc(4294967289); alloc(16)` from a fresh
arena (both sizes positive, no `free` at all) breaks the invariant.  The
first call's total wraps to 1, so its block's recorded size is 1 and the
frontier moves to 1; the second call's append then writes its header at
address 1, inside the first header, and its `size` store at bytes 5–8
rewrites the first header's `size` field from 1 to 6145 — the recorded
size of an existing block changes, and no chain of positive-size blocks
partitions `[0, 25)` any more (the first hop would overshoot the frontier).
Traced byte-for-byte from `allocator.hpp` under the documented little-
endian LP64 layout of `mcb_st`. -/
theorem partition_invariant_cex :
    (0 : Nat) < 4294967289 ∧ (0 : Nat) < 16 ∧
    (arenaB0.alloc 4294967289 false).retOpt = some headerSize ∧
    (cexState1.alloc 16 false).retOpt = some (1 + headerSize) ∧
    mcbSize cexState1.mem 0 = 1 ∧
    mcbSize cexState2.mem 0 = 6145 ∧
    mcbSize cexState2.mem 0 ≠ mcbSize cexState1.mem 0 ∧
    cexState2.mem_start_ = 0 ∧ cexState2.last_addr_ = 25 ∧
    ¬ ∃ l, ChainL (headerView cexState2.mem) cexState2.mem_start_
        cexState2.last_addr_ l := by
  refine ⟨by decide, by decide, rfl, rfl, rfl, rfl, by decide, rfl, rfl, ?_⟩
  rintro ⟨l, hc⟩
  cases l with
  | nil =>
    have h := chain_nil_inv hc
    exact absurd h (by decide)
  | cons A l' =>
    obtain ⟨hA, h1, h2, rest⟩ := chain_cons_inv hc
    have hle := chain_le rest
    have hsz : cexState2.mem_start_ +
        (headerView cexState2.mem cexState2.mem_start_).size = 6145 := by decide
    have h25 : cexState2.last_addr_ = 25 := rfl
    omega

/-- C5 (amended — `alloc` steps restricted to `n + headerSize < 2^32`; the
counterexample above shows the unrestricted claim false): every state
reachable from initialization by such `alloc` calls and `free` calls on
previously returned pointers satisfies the arena partition invariant:
`[mem_start_, last_addr_)` is exactly partitioned into a contiguous chain
of blocks with no gaps whose sizes sum from `mem_start_` exactly to
`last_addr_`; and block sizes are fixed for the life of the block — no
further `free` or `alloc` step changes the size recorded in any block of
the partition. -/
theorem reach_partition_invariant (s : Allocator) (ptrs : List Nat)
    (h : Reach s ptrs) :
    ∃ l, ChainL s.mem s.mem_start_ s.last_addr_ l ∧
      (∀ p A, A ∈ l → ((s.free p).mem A).size = (s.mem A).size) ∧
      (∀ n g r s', s.alloc n g = AllocResult.ok r s' →
        ∀ A ∈ l, (s'.mem A).size = (s.mem A).size) := by
  obtain ⟨l, hc⟩ := reach_chain s ptrs h
  exact ⟨l, hc, fun p A _ => free_mem_size s p A,
    fun n g r s' heq => alloc_sizes_stable hc heq⟩

/-- Witness for C5: the freshly initialized arena. -/
theorem reach_partition_invariant_witness :
    ∃ l, ChainL arena0.mem arena0.mem_start_ arena0.last_addr_ l ∧
      (∀ p A, A ∈ l → ((arena0.free p).mem A).size = (arena0.mem A).size) ∧
      (∀ n g r s', arena0.alloc n g = AllocResult.ok r s' →
        ∀ A ∈ l, (s'.mem A).size = (arena0.mem A).size) :=
  reach_partition_invariant arena0 [] (Reach.init 0 junkMem)

/-- C6 as frozen is false on the code: the request sizes are only required
to be positive, and at `s1 = s2 = 4294967288` (both `> 0`) the `uint32_t`
total size wraps to 0, so the frontier never advances and two successive
`alloc` calls on the fresh arena return the SAME pointer `headerSize` —
not strictly increasing, and the payload spans coincide. -/
theorem allocSeq_monotone_cex :
    (∀ sz ∈ [4294967288, 4294967288], 0 < sz) ∧
    allocSeqPtrs arena0 [4294967288, 4294967288] = some [headerSize, headerSize] ∧
    ¬ headerSize < headerSize :=
  ⟨by decide, rfl, by decide⟩

/-- C6 (amended with `s_i + headerSize < 2^32` for each request; for larger
sizes the `uint32_t` total wraps, see the counterexample): for any sequence
of `alloc` calls with positive non-overflowing sizes on a freshly
initialized arena and no intervening `free`, every call returns, the
returned payload pointers are strictly increasing, and the payload spans
`[ptr_i, ptr_i + s_i)` are pairwise disjoint (each span even ends at or
before the next pointer). -/
theorem allocSeq_monotone_disjoint (base : Nat) (junk : Nat → mcb_st)
    (szs : List Nat)
    (hszs : ∀ sz ∈ szs, 0 < sz ∧ sz + headerSize < U32) :
    ∃ ps s', allocSeq (Allocator.init base junk) szs = some (ps, s') ∧
      ps.length = szs.length ∧
      List.Pairwise (fun x y => x.1 < y.1 ∧ x.1 + x.2 ≤ y.1) (ps.zip szs) := by
  obtain ⟨ps, s', h1, h2, _, h4⟩ :=
    allocSeq_allFull szs (Allocator.init base junk) [] (ChainL.nil base)
      (by simp) hszs
  exact ⟨ps, s', h1, h2, h4⟩

/-- Witness for C6 (amended): requests of sizes 16 and 32 on a fresh arena
based at 0. -/
theorem allocSeq_monotone_disjoint_witness :
    ∃ ps s', allocSeq (Allocator.init 0 junkMem) [16, 32] = some (ps, s') ∧
      ps.length = [16, 32].length ∧
      List.Pairwise (fun x y => x.1 < y.1 ∧ x.1 + x.2 ≤ y.1) (ps.zip [16, 32]) :=
  allocSeq_monotone_disjoint 0 junkMem [16, 32] (by decide)

/-- C7 as frozen is false on the code: its second half says a freed block
of total size `X` is NOT reused when `Y + headerSize > X`, but the size
comparison happens on the `uint32_t`-wrapped total, so freeing the 20-byte
block and requesting `Y = 4294967292` (with `Y + headerSize > 20`) wraps
the needed total to 4 and reuses the freed block anyway, returning its
payload pointer. -/
theorem free_then_alloc_reuse_cex :
    (20 : Nat) < 4294967292 + headerSize ∧
    ((arenaFull.free (0 + headerSize)).alloc 4294967292 false).retOpt
      = some (0 + headerSize) :=
  ⟨by decide, rfl⟩

/-- C7 (amended with `Y + headerSize < 2^32`; for larger `Y` the wrapped
total can reuse the block, see the counterexample): if the block headed at
`A` — of total size `X`, earliest among the free blocks because every block
before it is allocated — is freed and `alloc` is then called with payload
size `Y > 0`, then when `Y + headerSize ≤ X` the freed block's payload
pointer `A + headerSize` is returned (it is reused), and when
`Y + headerSize > X` the call still returns, but with a pointer different
from `A + headerSize` (that block is not reused). -/
theorem free_then_alloc_reuse (s : Allocator) (l1 l2 : List Nat)
    (A X Y : Nat) (g : Bool)
    (hc : ChainL s.mem s.mem_start_ s.last_addr_ (l1 ++ A :: l2))
    (hX : (s.mem A).size = X)
    (hbefore : ∀ B ∈ l1, (s.mem B).free = false)
    (hY : 0 < Y) (hbound : Y + headerSize < U32) :
    (Y + headerSize ≤ X →
      ((s.free (A + headerSize)).alloc Y g).retOpt = some (A + headerSize)) ∧
    (X < Y + headerSize →
      ∃ r s', (s.free (A + headerSize)).alloc Y g = .ok r s' ∧
        r ≠ A + headerSize) := by
  have ha : A + headerSize - headerSize = A := by omega
  have hmem : (s.free (A + headerSize)).mem = setFree s.mem A true := by
    show setFree s.mem (A + headerSize - headerSize) true = setFree s.mem A true
    rw [ha]
  have hc' : ChainL (s.free (A + headerSize)).mem
      (s.free (A + headerSize)).mem_start_ (s.free (A + headerSize)).last_addr_
      (l1 ++ A :: l2) :=
    chain_congr (fun x _ => free_mem_size s (A + headerSize) x) hc
  have hsplit := chain_split l1 hc'
  have hAsize : ((s.free (A + headerSize)).mem A).size = X := by
    rw [free_mem_size, hX]
  have hAfree : ((s.free (A + headerSize)).mem A).free = true := by
    rw [hmem, setFree_same]
  have hprefix_none :
      l1.find? (fits (s.free (A + headerSize)).mem (Y + headerSize)) = none := by
    refine find?_none_of_allFull _ ?_
    intro B hB
    have hblt := chain_mem hsplit.1 B hB
    have hBne : B ≠ A := by omega
    rw [hmem, setFree_other s.mem true hBne]
    exact hbefore B hB
  constructor
  · intro hfit
    have hfA : fits (s.free (A + headerSize)).mem (Y + headerSize) A = true := by
      simp [fits, hAfree, hAsize, hfit]
    have hfind : (l1 ++ A :: l2).find?
        (fits (s.free (A + headerSize)).mem (Y + headerSize)) = some A := by
      rw [list_find?_append_none hprefix_none]
      exact List.find?_cons_of_pos l2 hfA
    have hfind' : (l1 ++ A :: l2).find?
        (fits (s.free (A + headerSize)).mem ((Y % U32 + headerSize) % U32))
        = some A := by
      rw [need_eq hbound]
      exact hfind
    rw [alloc_reuse g hc' hfind']
    rfl
  · intro hmiss
    have hfA : fits (s.free (A + headerSize)).mem (Y + headerSize) A = false := by
      simp [fits, hAsize]
      omega
    have hfind : (l1 ++ A :: l2).find?
        (fits (s.free (A + headerSize)).mem (Y + headerSize))
        = l2.find? (fits (s.free (A + headerSize)).mem (Y + headerSize)) := by
      rw [list_find?_append_none hprefix_none]
      exact List.find?_cons_of_neg l2 (by simp [hfA])
    have hrest := chain_cons_inv hsplit.2
    cases hfind2 : l2.find? (fits (s.free (A + headerSize)).mem (Y + headerSize)) with
    | some B =>
      have hBmem := List.mem_of_find?_eq_some hfind2
      have hBlt := chain_mem hrest.2.2.2 B hBmem
      have hfind' : (l1 ++ A :: l2).find?
          (fits (s.free (A + headerSize)).mem ((Y % U32 + headerSize) % U32))
          = some B := by
        rw [need_eq hbound, hfind]
        exact hfind2
      refine ⟨B + headerSize, _, alloc_reuse g hc' hfind', ?_⟩
      have : A < B := by omega
      omega
    | none =>
      have hfind' : (l1 ++ A :: l2).find?
          (fits (s.free (A + headerSize)).mem ((Y % U32 + headerSize) % U32))
          = none := by
        rw [need_eq hbound, hfind]
        exact hfind2
      have hAlt := chain_mem hc' A (by simp)
      refine ⟨(s.free (A + headerSize)).last_addr_ + headerSize, _,
        alloc_miss g hc' hfind', ?_⟩
      have : A < (s.free (A + headerSize)).last_addr_ := by omega
      omega

/-- Witness for C7 (amended): the 20-byte block at address 0 is freed and a
4-byte payload (total 12 ≤ 20) is requested. -/
theorem free_then_alloc_reuse_witness :
    (4 + headerSize ≤ 20 →
      ((arenaFull.free (0 + headerSize)).alloc 4 false).retOpt
        = some (0 + headerSize)) ∧
    ((20 : Nat) < 4 + headerSize →
      ∃ r s', (arenaFull.free (0 + headerSize)).alloc 4 false = .ok r s' ∧
        r ≠ 0 + headerSize) :=
  free_then_alloc_reuse arenaFull [] [] 0 20 4 false arenaFull_chain
    (by decide) (by simp) (by decide) (by decide)

end MemMgr
